import Mathlib

/-!
Verification of the `bloat` analysis core of git-time-machine
(`src/cli/commands/bloat.js`).

The JavaScript source is shallowly embedded below.  External process
invocations (`git rev-list --objects`, `git cat-file --batch-check`,
`du`, `find`) are modelled as parameters: the enumerator's output is a
list of already-line-split strings (the source does
`output.trim().split('\n')`), and the size-resolution command is a
function from an input batch of identifiers to `Option String`
(`none` models the thrown-and-caught per-batch failure, `some out` the
command's stdout).  JavaScript string primitives used by the source
(`split(/\s+/)`, `split(' ')`, `split('.')`, `trim()`, `includes`,
`parseInt(s, 10)`, truthiness of `''`/`undefined`) are given faithful
executable models on `List Char`.  JavaScript `Map` (insertion-ordered,
`set` updates in place) is modelled as an association list.
`Array.prototype.sort` is stable per the ECMAScript specification; the
comparator `(a, b) => b.size - a.size` therefore yields the unique
stable descending-by-size reordering, modelled by a stable insertion
sort.  Sizes are `Int` because `parseInt` may produce negative values
on arbitrary command output.
-/

namespace GitBloat

/-- Model of JavaScript `String.prototype.split(/\s+/)`: split on maximal
runs of whitespace; a leading run contributes a leading `""`, a trailing
run a trailing `""`; the empty string yields `[""]`.
State: remaining characters, current token (reversed), inside-run flag. -/
def wsSplitAux : List Char → List Char → Bool → List String
  | [], cur, inWs => if inWs then [""] else [String.mk cur.reverse]
  | ch :: rest, cur, inWs =>
    if ch.isWhitespace then
      if inWs then wsSplitAux rest cur true
      else String.mk cur.reverse :: wsSplitAux rest [] true
    else wsSplitAux rest (if inWs then [ch] else ch :: cur) false

/-- JavaScript `line.split(/\s+/)` (used at bloat.js:50). -/
def jsSplitWs (s : String) : List String := wsSplitAux s.data [] false

/-- Model of JavaScript `split(sep)` for a single-character separator
(used for `split(' ')`, `split('\n')`, `split('.')`). -/
def splitOnChar (sep : Char) : List Char → List (List Char)
  | [] => [[]]
  | ch :: cs =>
    if ch = sep then [] :: splitOnChar sep cs
    else
      match splitOnChar sep cs with
      | [] => [[ch]]
      | t :: ts => (ch :: t) :: ts

/-- Model of JavaScript `String.prototype.trim()` on the character list. -/
def trimChars (cs : List Char) : List Char :=
  ((cs.dropWhile Char.isWhitespace).reverse.dropWhile Char.isWhitespace).reverse

/-- Join character-list lines with a separator character (used to model
the stdout of `git cat-file --batch-check`, one line per object). -/
def joinSep (sep : Char) : List (List Char) → List Char
  | [] => []
  | [l] => l
  | l :: ls => l ++ sep :: joinSep sep ls

/-- Model of JavaScript `String.prototype.includes` (substring test). -/
def jsIncludes (s sub : String) : Bool :=
  s.data.tails.any (fun t => sub.data.isPrefixOf t)

/-- Decimal digit character (for modelling numeric command output and
the `${largeObjects.length}` template literal). -/
def decChar (d : Nat) : Char := Char.ofNat (48 + d)

/-- Decimal digits of a natural number, fuel-structured so that it
reduces in the kernel. -/
def natToDigits : Nat → Nat → List Char
  | 0, _ => []
  | fuel + 1, n =>
    if n < 10 then [decChar n]
    else natToDigits fuel (n / 10) ++ [decChar (n % 10)]

/-- Decimal rendering of a natural number. -/
def natToString (n : Nat) : String := String.mk (natToDigits (n + 1) n)

/-- Leading-digit parse used by the `parseInt` model: take the maximal
digit prefix; `none` when it is empty (JavaScript `NaN`). -/
def digitsToNat (cs : List Char) : Option Nat :=
  let ds := cs.takeWhile Char.isDigit
  if ds.isEmpty then none
  else some (ds.foldl (fun a ch => a * 10 + (ch.toNat - 48)) 0)

/-- Sign handling of the `parseInt` model on the whitespace-stripped
character list. -/
def parseIntChars : List Char → Option Int
  | [] => none
  | ch :: rest =>
    if ch = '-' then (digitsToNat rest).map (fun n => -(n : Int))
    else if ch = '+' then (digitsToNat rest).map (fun n => (n : Int))
    else (digitsToNat (ch :: rest)).map (fun n => (n : Int))

/-- Model of JavaScript `parseInt(s, 10)`: skip leading whitespace,
optional sign, maximal digit prefix; `none` models `NaN`. -/
def jsParseInt (s : String) : Option Int :=
  parseIntChars (s.data.dropWhile Char.isWhitespace)

/-- JavaScript `hashToPath.get(hash) || '(unknown)'` (bloat.js:80):
`undefined` (key absent) and the empty string are both falsy. -/
def jsPathOr : Option String → String
  | none => "(unknown)"
  | some p => if p = "" then "(unknown)" else p

/-! ### Insertion-ordered map (JavaScript `Map`) -/

/-- JavaScript `Map.prototype.set`: update the value in place when the
key is present (position preserved), otherwise append. -/
def mapSet {β : Type} : List (String × β) → String → β → List (String × β)
  | [], k, v => [(k, v)]
  | (k', v') :: rest, k, v =>
    if k' = k then (k, v) :: rest else (k', v') :: mapSet rest k v

/-- JavaScript `Map.prototype.get` (`none` models `undefined`). -/
def mapGet {β : Type} (m : List (String × β)) (k : String) : Option β :=
  (m.find? (fun p => p.1 = k)).map (fun p => p.2)

/-- Keys of the map in insertion order (JavaScript `[...m.keys()]`). -/
def mapKeys {β : Type} (m : List (String × β)) : List String :=
  m.map (fun p => p.1)

/-- Value of the last pair with the given key (used to state what the
enumerator's per-identifier dedup actually keeps). -/
def lastVal {β : Type} : List (String × β) → String → Option β
  | [], _ => none
  | (k, v) :: rest, h =>
    match lastVal rest h with
    | some v' => some v'
    | none => if k = h then some v else none

/-- Value of the first pair with the given key (what the specification
says the dedup keeps). -/
def firstVal {β : Type} : List (String × β) → String → Option β
  | [], _ => none
  | (k, v) :: rest, h => if k = h then some v else firstVal rest h

/-! ### Data model -/

/-- A sized inventory entry (bloat.js:78-82). -/
structure SizedObject where
  hash : String
  path : String
  size : Int
deriving DecidableEq, Repr

/-- One line of `git rev-list --objects` output parsed as in
bloat.js:49-56: `parts = line.split(/\s+/)`; two or more parts give
`(hash, parts.slice(1).join(' '))`, exactly one part gives `(hash, '')`.
`jsSplitWs` never returns `[]`, so the `[]` case is unreachable. -/
def parseRefLine (line : String) : Option (String × String) :=
  match jsSplitWs line with
  | [] => none
  | [h] => some (h, "")
  | h :: rest => some (h, String.intercalate " " rest)

/-- The identifier/path observations of the enumerator, in enumeration
order. -/
def observations (lines : List String) : List (String × String) :=
  lines.filterMap parseRefLine

/-- The `hashToPath` map of bloat.js:47-56: each observed line `set`s
the map, so a repeated identifier keeps its position but its path is
overwritten. -/
def buildHashToPath (lines : List String) : List (String × String) :=
  (observations lines).foldl (fun m p => mapSet m p.1 p.2) []

/-- `const hashes = [...hashToPath.keys()]` (bloat.js:59). -/
def hashKeys (lines : List String) : List String :=
  mapKeys (buildHashToPath lines)

/-- The slicing loop `for (let i = 0; i < hashes.length; i += batchSize)`
(bloat.js:62-63), fuel-structured; `xs.length` steps always suffice when
the batch size is at least 1. -/
def chunkListFuel {α : Type} : Nat → Nat → List α → List (List α)
  | 0, _, _ => []
  | _, _, [] => []
  | fuel + 1, bs, xs => xs.take bs :: chunkListFuel fuel bs (xs.drop bs)

/-- Chunking of the identifier stream into batches. -/
def chunkList {α : Type} (bs : Nat) (xs : List α) : List (List α) :=
  chunkListFuel xs.length bs xs

/-- One line of `git cat-file --batch-check` output parsed as in
bloat.js:74-84: `const [size, hash] = line.split(' ')`, `parseInt(size, 10)`,
push only when the size parsed and `hash` is truthy. -/
def parseSizeLine (hp : List (String × String)) (line : String) : Option SizedObject :=
  let parts := splitOnChar ' ' line.data
  let sizeStr : String := String.mk (parts.headD [])
  let hashStr : String := String.mk ((parts.drop 1).headD [])
  match jsParseInt sizeStr with
  | none => none
  | some n =>
    if hashStr = "" then none
    else some ⟨hashStr, jsPathOr (mapGet hp hashStr), n⟩

/-- Processing of one batch's stdout (bloat.js:74-84):
`sizeOutput.trim().split('\n')`, then parse-and-push per line. -/
def processBatchOutput (hp : List (String × String)) (out : String) : List SizedObject :=
  ((splitOnChar '\n' (trimChars out.data)).map String.mk).filterMap (parseSizeLine hp)

/-- The pushed (pre-sort) object list of bloat.js:62-88: per-batch
command invocation, a failing batch (`none`) is skipped (`catch {}`). -/
def rawObjects (lines : List String) (catFile : List String → Option String)
    (bs : Nat) : List SizedObject :=
  (chunkList bs (hashKeys lines)).flatMap (fun batch =>
    match catFile batch with
    | none => []
    | some out => processBatchOutput (buildHashToPath lines) out)

/-- Stable descending insertion step: an element moves past strictly
smaller ones only, so the earlier of two equal-size entries stays first. -/
def insertDesc (x : SizedObject) : List SizedObject → List SizedObject
  | [] => [x]
  | y :: ys => if x.size < y.size then y :: insertDesc x ys else x :: y :: ys

/-- Model of `objects.sort((a, b) => b.size - a.size)` (bloat.js:90):
ECMAScript sort is stable, and a stable descending-by-size sort is
unique, so the stable insertion sort is an exact model. -/
def sortDescBySize (l : List SizedObject) : List SizedObject :=
  l.foldr insertDesc []

/-- `getAllObjects` (bloat.js:31-94) with an explicit batch size. -/
def getAllObjectsChunked (lines : List String)
    (catFile : List String → Option String) (bs : Nat) : List SizedObject :=
  sortDescBySize (rawObjects lines catFile bs)

/-- `const batchSize = 500` (bloat.js:60). -/
def batchSize : Nat := 500

/-- `getAllObjects` with the source's batch size. -/
def getAllObjects (lines : List String)
    (catFile : List String → Option String) : List SizedObject :=
  getAllObjectsChunked lines catFile batchSize

/-! ### Classifier (bloat.js:151-174) -/

/-- The fixed extension table, in the source's `Object.entries` order. -/
def categoryTable : List (String × List String) :=
  [("binary", ["exe", "dll", "so", "dylib", "bin", "obj", "o", "a"]),
   ("archive", ["zip", "tar", "gz", "bz2", "xz", "7z", "rar", "tgz"]),
   ("image", ["jpg", "jpeg", "png", "gif", "bmp", "tiff", "psd", "svg", "webp", "ico"]),
   ("video", ["mp4", "avi", "mov", "wmv", "flv", "webm", "mkv"]),
   ("audio", ["mp3", "wav", "ogg", "flac", "aac", "m4a"]),
   ("data", ["db", "sqlite", "sql", "csv", "json", "xml", "parquet"]),
   ("document", ["pdf", "doc", "docx", "xls", "xlsx", "ppt", "pptx"]),
   ("package", ["jar", "war", "ear", "whl", "gem", "nupkg"]),
   ("nodemodules", ["node_modules"]),
   ("log", ["log"])]

/-- `path.split('.').pop()?.toLowerCase() || ''` (bloat.js:152): the last
dot-separated component, lowercased; for a dotless path this is the whole
path. -/
def fileExt (path : String) : String :=
  String.mk (((splitOnChar '.' path.data).getLastD []).map Char.toLower)

/-- The per-category test of the loop body (bloat.js:168):
`exts.includes(ext) || path.includes(category)`. -/
def matchesCat (path : String) (entry : String × List String) : Bool :=
  entry.2.contains (fileExt path) || jsIncludes path entry.1

/-- `categorizeFile` (bloat.js:151-174): first table entry matching by
extension or by category-name substring, else `'other'`. -/
def categorizeFile (path : String) : String :=
  match categoryTable.find? (matchesCat path) with
  | some e => e.1
  | none => "other"

/-- The closed category enumeration. -/
def fixedCategories : List String :=
  (categoryTable.map (fun e => e.1)) ++ ["other"]

/-! ### Recommendation engine (bloat.js:179-222) -/

/-- Advisory pushed when any path contains `node_modules` (bloat.js:196). -/
def recNodeModules : String := "⚠️  node_modules in history — use git-filter-repo to remove"

/-- Advisory pushed when any path contains `vendor/` (bloat.js:199). -/
def recVendor : String := "⚠️  vendor/ directory in history — consider removing"

/-- Advisory pushed for large media objects (bloat.js:202). -/
def recLargeMedia : String := "⚠️  Large media files detected — consider Git LFS"

/-- Advisory pushed for large package/archive objects (bloat.js:205). -/
def recPackages : String := "⚠️  Package files in history — use artifact storage instead"

/-- First advisory line of the store-bloat rule (bloat.js:209). -/
def recStoreBloat : String := "⚠️  .git directory is 3x larger than working directory"

/-- Second advisory line of the store-bloat rule (bloat.js:210). -/
def recStoreBloatRun : String := "   Run: git gc --aggressive --prune=now"

/-- Advisory for many objects over 10MB (bloat.js:214), with the
interpolated count. -/
def recLargeCount (n : Nat) : String :=
  String.mk ("💡 ".data ++ (natToString n).data ++
    " objects over 10MB — consider git-filter-repo cleanup".data)

/-- The healthy affirmation (bloat.js:218). -/
def recHealthy : String := "✅ Repository looks healthy!"

/-- `generateRecommendations` (bloat.js:179-222): all rules evaluated in
source order, the healthy message only when nothing fired. -/
def generateRecommendations (objects : List SizedObject)
    (gitDirSize workingDirSize : Nat) : List String :=
  let largeObjects := objects.filter (fun o => 10 * 1024 * 1024 < o.size)
  let hasNodeModules := objects.any (fun o => jsIncludes o.path "node_modules")
  let hasVendor := objects.any (fun o => jsIncludes o.path "vendor/")
  let hasLargeMedia := objects.any (fun o =>
    5 * 1024 * 1024 < o.size &&
    (["image", "video", "audio"].contains (categorizeFile o.path)))
  let hasPackages := objects.any (fun o =>
    1024 * 1024 < o.size &&
    (["package", "archive"].contains (categorizeFile o.path)))
  let recs :=
    (if hasNodeModules then [recNodeModules] else []) ++
    (if hasVendor then [recVendor] else []) ++
    (if hasLargeMedia then [recLargeMedia] else []) ++
    (if hasPackages then [recPackages] else []) ++
    (if workingDirSize * 3 < gitDirSize then [recStoreBloat, recStoreBloatRun] else []) ++
    (if 10 < largeObjects.length then [recLargeCount largeObjects.length] else [])
  if recs.isEmpty then [recHealthy] else recs

/-! ### Stats and the analysis result (bloat.js:228-348, JSON branch) -/

/-- A JavaScript number as produced by `gitDirSize / workingDirSize`:
finite, `Infinity`, or `NaN`.  JavaScript float division never throws;
dividing a positive number by zero yields `Infinity` and `0 / 0` yields
`NaN`. -/
inductive JsNum where
  | fin (q : ℚ)
  | inf
  | nan
deriving DecidableEq, Repr

/-- JavaScript division of two non-negative integers. -/
def jsDivNat (a b : Nat) : JsNum :=
  if b = 0 then (if a = 0 then JsNum.nan else JsNum.inf)
  else JsNum.fin ((a : ℚ) / (b : ℚ))

/-- Sum of the sizes of an inventory. -/
def sumSizes (objects : List SizedObject) : Int :=
  (objects.map (fun o => o.size)).sum

/-- The `stats` object of the JSON output (bloat.js:263-270).  `ratio`
is kept as the raw division result (the source formats it with
`.toFixed(2)`, which is presentation only). -/
structure BloatStats where
  gitDirSize : Nat
  workingDirSize : Nat
  totalObjectSize : Int
  objectCount : Nat
  largeObjectCount : Nat
  ratioStat : JsNum
deriving DecidableEq, Repr

/-- The analysis result assembled by `bloatCommand` (bloat.js:262-276). -/
structure BloatReport where
  stats : BloatStats
  largestFiles : List (SizedObject × String)
  recommendations : List String
deriving DecidableEq, Repr

/-- The pure core of `bloatCommand` (bloat.js:238-276): inventory,
min-size filter, totals, recommendations, and the JSON payload.  The two
directory measurements are external (parameters `gitDirSize`,
`workingDirSize`); a failed measurement is reported as 0 by the source
(bloat.js:115-146). -/
def analyzeBloat (lines : List String) (catFile : List String → Option String)
    (gitDirSize workingDirSize limit : Nat) (minSize : Int) : BloatReport :=
  let objects := getAllObjects lines catFile
  let filteredObjects := objects.filter (fun o => minSize ≤ o.size)
  let totalObjectSize := objects.foldl (fun sum o => sum + o.size) 0
  let recommendations := generateRecommendations objects gitDirSize workingDirSize
  { stats :=
      { gitDirSize := gitDirSize
        workingDirSize := workingDirSize
        totalObjectSize := totalObjectSize
        objectCount := objects.length
        largeObjectCount := filteredObjects.length
        ratioStat := jsDivNat gitDirSize workingDirSize }
    largestFiles := (filteredObjects.take limit).map (fun o => (o, categorizeFile o.path))
    recommendations := recommendations }

/-- The per-category byte totals of the text branch (bloat.js:313-317):
`categories.set(cat, (categories.get(cat) || 0) + obj.size)`. -/
def mapIncr (m : List (String × Int)) (k : String) (v : Int) : List (String × Int) :=
  mapSet m k ((mapGet m k).getD 0 + v)

/-- `categoryTotals` over an inventory (bloat.js:313-317). -/
def categoryTotals (objects : List SizedObject) : List (String × Int) :=
  objects.foldl (fun m o => mapIncr m (categorizeFile o.path) o.size) []

/-- Sum of the values of a category-totals map. -/
def valsSum (m : List (String × Int)) : Int :=
  (m.map (fun p => p.2)).sum

/-! ### Model of the `git cat-file --batch-check` collaborator

The real command prints, for each resolvable input identifier, the line
`"%(objectsize) %(objectname)"`; a whole invocation may also fail, which
the source catches per batch. -/

/-- The stdout lines of one batch invocation against an object store
(`store h = none` models an identifier the store omits). -/
def oracleLines (store : String → Option Nat) (batch : List String) : List (List Char) :=
  batch.filterMap (fun h => (store h).map (fun n => (natToString n).data ++ ' ' :: h.data))

/-- The stdout of one batch invocation. -/
def oracleOut (store : String → Option Nat) (batch : List String) : String :=
  String.mk (joinSep '\n' (oracleLines store batch))

/-- A batched size-resolution collaborator: batches selected by
`failSet` throw (modelled as `none`), the rest print one line per
resolvable identifier. -/
def storeOracle (store : String → Option Nat) (failSet : List String → Bool)
    (batch : List String) : Option String :=
  if failSet batch then none else some (oracleOut store batch)

/-- A collaborator on which every size lookup succeeds. -/
def totalOracle (store : String → Nat) : List String → Option String :=
  storeOracle (fun h => some (store h)) (fun _ => false)

/-- Well-formedness of the enumerated identifiers: non-empty and free of
whitespace (true of real content hashes, which are hexadecimal). -/
def noWsStr (s : String) : Bool := s.data.all (fun ch => !ch.isWhitespace)

/-- Decidable well-formedness of an enumeration's identifier set. -/
def goodHashes (lines : List String) : Bool :=
  (hashKeys lines).all (fun h => (h != "") && noWsStr h)

/-! ## Infrastructure lemmas -/

/-! ### Decimal digits and `parseInt` -/

theorem decChar_isDigit {d : Nat} (hd : d < 10) : (decChar d).isDigit = true := by
  interval_cases d <;> decide

theorem decChar_not_ws {d : Nat} (hd : d < 10) : (decChar d).isWhitespace = false := by
  interval_cases d <;> decide

theorem decChar_ne_space {d : Nat} (hd : d < 10) : decChar d ≠ ' ' := by
  interval_cases d <;> decide

theorem decChar_ne_newline {d : Nat} (hd : d < 10) : decChar d ≠ '\n' := by
  interval_cases d <;> decide

theorem decChar_ne_minus {d : Nat} (hd : d < 10) : decChar d ≠ '-' := by
  interval_cases d <;> decide

theorem decChar_ne_plus {d : Nat} (hd : d < 10) : decChar d ≠ '+' := by
  interval_cases d <;> decide

theorem decChar_toNat {d : Nat} (hd : d < 10) : (decChar d).toNat - 48 = d := by
  interval_cases d <;> decide

theorem natToDigits_ne_nil {fuel n : Nat} (h : 1 ≤ fuel) : natToDigits fuel n ≠ [] := by
  cases fuel with
  | zero => omega
  | succ fuel =>
    by_cases hn : n < 10
    · simp [natToDigits, hn]
    · simp [natToDigits, hn]

theorem natToDigits_mem {fuel n : Nat} :
    ∀ ch ∈ natToDigits fuel n, ∃ d, d < 10 ∧ ch = decChar d := by
  induction fuel generalizing n with
  | zero => simp [natToDigits]
  | succ fuel ih =>
    by_cases hn : n < 10
    · simp only [natToDigits, if_pos hn]
      intro ch hch
      simp only [List.mem_singleton] at hch
      exact ⟨n, hn, hch⟩
    · simp only [natToDigits, if_neg hn]
      intro ch hch
      rcases List.mem_append.mp hch with h1 | h2
      · exact ih ch h1
      · simp only [List.mem_singleton] at h2
        exact ⟨n % 10, Nat.mod_lt _ (by omega), h2⟩

theorem natToDigits_foldl {n : Nat} :
    ∀ fuel, n + 1 ≤ fuel →
      (natToDigits fuel n).foldl (fun a ch => a * 10 + (ch.toNat - 48)) 0 = n := by
  induction n using Nat.strong_induction_on with
  | _ n ih =>
    intro fuel hfuel
    cases fuel with
    | zero => omega
    | succ fuel =>
      by_cases hn : n < 10
      · simp only [natToDigits, if_pos hn, List.foldl_cons, List.foldl_nil]
        rw [decChar_toNat hn]
        omega
      · simp only [natToDigits, if_neg hn]
        rw [List.foldl_append]
        rw [ih (n / 10) (by omega) fuel (by omega)]
        simp only [List.foldl_cons, List.foldl_nil]
        rw [decChar_toNat (Nat.mod_lt _ (by omega))]
        omega

theorem digitsToNat_natToDigits {n : Nat} :
    digitsToNat (natToDigits (n + 1) n) = some n := by
  have hall : ∀ ch ∈ natToDigits (n + 1) n, ch.isDigit = true := by
    intro ch hch
    obtain ⟨d, hd, rfl⟩ := natToDigits_mem ch hch
    exact decChar_isDigit hd
  have hne := @natToDigits_ne_nil (n + 1) n (by omega)
  simp only [digitsToNat]
  rw [List.takeWhile_eq_self_iff.mpr hall]
  rw [if_neg (by simpa [List.isEmpty_iff] using hne)]
  rw [natToDigits_foldl (n + 1) (by omega)]

theorem natToString_data {n : Nat} : (natToString n).data = natToDigits (n + 1) n := rfl

theorem natToString_mem {n : Nat} :
    ∀ ch ∈ (natToString n).data, ∃ d, d < 10 ∧ ch = decChar d := by
  rw [natToString_data]; exact natToDigits_mem

theorem jsParseInt_natToString {n : Nat} : jsParseInt (natToString n) = some (n : Int) := by
  have hne := @natToDigits_ne_nil (n + 1) n (by omega)
  obtain ⟨ch, rest, hcons⟩ := List.exists_cons_of_ne_nil hne
  obtain ⟨d, hd, hchd⟩ :=
    natToDigits_mem ch (by rw [hcons]; exact List.mem_cons_self _ _)
  subst hchd
  unfold jsParseInt
  rw [natToString_data, hcons,
    List.dropWhile_cons_of_neg (by simp [decChar_not_ws hd])]
  simp only [parseIntChars]
  rw [if_neg (decChar_ne_minus hd), if_neg (decChar_ne_plus hd), ← hcons,
    digitsToNat_natToDigits]
  rfl

/-! ### Splitting, joining, trimming -/

theorem splitOnChar_ne_nil {sep : Char} {cs : List Char} : splitOnChar sep cs ≠ [] := by
  cases cs with
  | nil => simp [splitOnChar]
  | cons ch cs =>
    by_cases h : ch = sep
    · simp [splitOnChar, h]
    · simp only [splitOnChar, if_neg h]
      split <;> simp

theorem splitOnChar_of_not_mem {sep : Char} {cs : List Char} (h : sep ∉ cs) :
    splitOnChar sep cs = [cs] := by
  induction cs with
  | nil => rfl
  | cons ch cs ih =>
    have hch : ¬ ch = sep := fun he => h (he ▸ List.mem_cons_self _ _)
    have hcs : sep ∉ cs := fun hm => h (List.mem_cons_of_mem _ hm)
    simp only [splitOnChar, if_neg hch, ih hcs]

theorem splitOnChar_append_cons {sep : Char} {l t : List Char} (h : sep ∉ l) :
    splitOnChar sep (l ++ sep :: t) = l :: splitOnChar sep t := by
  induction l with
  | nil => simp [splitOnChar]
  | cons ch l ih =>
    have hch : ¬ ch = sep := fun he => h (he ▸ List.mem_cons_self _ _)
    have hl : sep ∉ l := fun hm => h (List.mem_cons_of_mem _ hm)
    simp only [List.cons_append, splitOnChar, if_neg hch, List.append_eq]
    rw [ih hl]

theorem splitOnChar_joinSep {sep : Char} {ls : List (List Char)} (hne : ls ≠ [])
    (hfree : ∀ l ∈ ls, sep ∉ l) : splitOnChar sep (joinSep sep ls) = ls := by
  induction ls with
  | nil => exact absurd rfl hne
  | cons l ls ih =>
    cases ls with
    | nil => exact splitOnChar_of_not_mem (hfree l (List.mem_cons_self _ _))
    | cons l' ls' =>
      have h1 : sep ∉ l := hfree l (List.mem_cons_self _ _)
      have h2 : ∀ x ∈ l' :: ls', sep ∉ x := fun x hx =>
        hfree x (List.mem_cons_of_mem _ hx)
      simp only [joinSep, splitOnChar_append_cons h1]
      rw [ih (by simp) h2]

theorem mem_of_getLast? {α : Type} {l : List α} {a : α} (h : l.getLast? = some a) :
    a ∈ l := by
  induction l with
  | nil => simp at h
  | cons b l ih =>
    cases l with
    | nil =>
      simp only [List.getLast?_singleton, Option.some.injEq] at h
      simp [h]
    | cons c l' =>
      rw [List.getLast?_cons_cons] at h
      exact List.mem_cons_of_mem _ (ih h)

theorem trimChars_eq_self {cs : List Char}
    (hhead : ∀ a, cs.head? = some a → a.isWhitespace = false)
    (hlast : ∀ a, cs.getLast? = some a → a.isWhitespace = false) :
    trimChars cs = cs := by
  cases cs with
  | nil => rfl
  | cons ch cs' =>
    have h1 : ch.isWhitespace = false := hhead ch rfl
    unfold trimChars
    rw [List.dropWhile_cons_of_neg (by simp [h1])]
    have hrne : (ch :: cs').reverse ≠ [] := by simp
    obtain ⟨a, r', hr⟩ := List.exists_cons_of_ne_nil hrne
    have ha : (ch :: cs').getLast? = some a := by
      rw [← List.head?_reverse, hr]; rfl
    have h2 : a.isWhitespace = false := hlast a ha
    rw [hr, List.dropWhile_cons_of_neg (by simp [h2]), ← hr, List.reverse_reverse]

theorem joinSep_head? {sep : Char} {l : List Char} {ls : List (List Char)}
    (h : l ≠ []) : (joinSep sep (l :: ls)).head? = l.head? := by
  obtain ⟨ch, l', rfl⟩ := List.exists_cons_of_ne_nil h
  cases ls with
  | nil => rfl
  | cons l'' ls' => rfl

theorem joinSep_getLast? {sep : Char} {ls : List (List Char)} {l : List Char}
    (h : l ≠ []) : (joinSep sep (ls ++ [l])).getLast? = l.getLast? := by
  induction ls with
  | nil => rfl
  | cons a ls ih =>
    have hne : ls ++ [l] ≠ [] := by simp
    obtain ⟨x, xs, hx⟩ := List.exists_cons_of_ne_nil hne
    have hstep : joinSep sep (a :: (ls ++ [l])) = a ++ sep :: joinSep sep (ls ++ [l]) := by
      rw [hx]; rfl
    rw [List.cons_append, hstep, List.getLast?_append_cons]
    have hjne : joinSep sep (ls ++ [l]) ≠ [] := by
      intro hnil
      have := ih
      rw [hnil] at this
      simp only [List.getLast?_nil] at this
      obtain ⟨b, bs, rfl⟩ := List.exists_cons_of_ne_nil h
      have hsome : (b :: bs).getLast? = some ((b :: bs).getLast (by simp)) :=
        List.getLast?_eq_getLast _ _
      rw [hsome] at this
      exact Option.noConfusion this
    obtain ⟨y, ys, hy⟩ := List.exists_cons_of_ne_nil hjne
    rw [hy, List.getLast?_cons_cons, ← hy, ih]

theorem head?_append_left {α : Type} {l₁ l₂ : List α} (h : l₁ ≠ []) :
    (l₁ ++ l₂).head? = l₁.head? := by
  obtain ⟨a, t, rfl⟩ := List.exists_cons_of_ne_nil h
  rfl

/-! ### Parsing the size-resolution collaborator's output -/

theorem noWsStr_mem {h : String} (hws : noWsStr h = true) :
    ∀ ch ∈ h.data, ch.isWhitespace = false := by
  intro ch hch
  have := (List.all_eq_true.mp hws) ch hch
  simpa using this

theorem str_data_ne_nil {h : String} (hne : h ≠ "") : h.data ≠ [] := by
  intro hd
  apply hne
  cases h with
  | mk l => cases hd; rfl

theorem parseSizeLine_oracle {hp : List (String × String)} {h : String} {n : Nat}
    (hne : h ≠ "") (hws : noWsStr h = true) :
    parseSizeLine hp (String.mk ((natToString n).data ++ ' ' :: h.data)) =
      some ⟨h, jsPathOr (mapGet hp h), (n : Int)⟩ := by
  have hs1 : ' ' ∉ (natToString n).data := by
    intro hm
    obtain ⟨d, hd, hde⟩ := natToString_mem ' ' hm
    exact decChar_ne_space hd hde.symm
  have hs2 : ' ' ∉ h.data := by
    intro hm
    have := noWsStr_mem hws ' ' hm
    simp at this
  simp only [parseSizeLine]
  rw [splitOnChar_append_cons hs1, splitOnChar_of_not_mem hs2]
  simp only [List.headD_cons, List.drop_succ_cons, List.drop_zero]
  rw [show String.mk (natToString n).data = natToString n from rfl,
    jsParseInt_natToString]
  show (if h = "" then (none : Option SizedObject)
    else some ⟨h, jsPathOr (mapGet hp h), (n : Int)⟩) =
    some ⟨h, jsPathOr (mapGet hp h), (n : Int)⟩
  rw [if_neg hne]

theorem oracleLines_shape {store : String → Option Nat} {batch : List String}
    {l : List Char} (hl : l ∈ oracleLines store batch) :
    ∃ h n, h ∈ batch ∧ store h = some n ∧ l = (natToString n).data ++ ' ' :: h.data := by
  simp only [oracleLines, List.mem_filterMap] at hl
  obtain ⟨h, hh, hmap⟩ := hl
  cases hsn : store h with
  | none => rw [hsn] at hmap; simp at hmap
  | some n =>
    rw [hsn] at hmap
    simp only [Option.map_some', Option.some.injEq] at hmap
    exact ⟨h, n, hh, hsn, hmap.symm⟩

theorem processBatchOutput_oracle {hp : List (String × String)}
    {store : String → Option Nat} {batch : List String}
    (hgood : ∀ h ∈ batch, h ≠ "" ∧ noWsStr h = true) :
    processBatchOutput hp (oracleOut store batch) =
      batch.filterMap (fun h => (store h).map
        (fun n : Nat => (⟨h, jsPathOr (mapGet hp h), (n : Int)⟩ : SizedObject))) := by
  have hshape := fun {l} (hl : l ∈ oracleLines store batch) => oracleLines_shape hl
  simp only [processBatchOutput, oracleOut]
  by_cases hem : oracleLines store batch = []
  · rw [hem]
    have hnone : ∀ h ∈ batch, store h = none := by
      intro h hh
      have hx := List.filterMap_eq_nil_iff.mp hem h hh
      cases hsn : store h with
      | none => rfl
      | some n => rw [hsn] at hx; simp at hx
    rw [show batch.filterMap (fun h => (store h).map
        (fun n : Nat => (⟨h, jsPathOr (mapGet hp h), (n : Int)⟩ : SizedObject))) = [] from
      List.filterMap_eq_nil_iff.mpr (fun h hh => by rw [hnone h hh]; rfl)]
    rfl
  · have hlfacts : ∀ l ∈ oracleLines store batch,
        l ≠ [] ∧ (∀ a, l.head? = some a → a.isWhitespace = false) ∧
        (∀ a, l.getLast? = some a → a.isWhitespace = false) ∧ '\n' ∉ l := by
      intro l hl
      obtain ⟨h, n, hh, hsn, rfl⟩ := hshape hl
      obtain ⟨hne, hws⟩ := hgood h hh
      have hAne : (natToString n).data ≠ [] := by
        rw [natToString_data]; exact natToDigits_ne_nil (by omega)
      refine ⟨by simp [hAne], ?_, ?_, ?_⟩
      · intro a ha
        rw [head?_append_left hAne] at ha
        obtain ⟨d, hd, rfl⟩ := natToString_mem a (by
          obtain ⟨c, t, hct⟩ := List.exists_cons_of_ne_nil hAne
          rw [hct] at ha ⊢
          cases ha
          exact List.mem_cons_self _ _)
        exact decChar_not_ws hd
      · intro a ha
        rw [List.getLast?_append_cons] at ha
        have hdne := str_data_ne_nil hne
        obtain ⟨c, t, hct⟩ := List.exists_cons_of_ne_nil hdne
        rw [hct, List.getLast?_cons_cons] at ha
        have hmem : a ∈ h.data := by
          rw [hct]; exact mem_of_getLast? ha
        exact noWsStr_mem hws a hmem
      · intro hm
        rcases List.mem_append.mp hm with h1 | h2
        · obtain ⟨d, hd, hde⟩ := natToString_mem '\n' h1
          exact decChar_ne_newline hd hde.symm
        · rcases List.mem_cons.mp h2 with h3 | h4
          · exact absurd h3 (by decide)
          · have := noWsStr_mem hws '\n' h4
            simp at this
    have htrim : trimChars (joinSep '\n' (oracleLines store batch))
        = joinSep '\n' (oracleLines store batch) := by
      apply trimChars_eq_self
      · intro a ha
        obtain ⟨l0, ls', hcons⟩ := List.exists_cons_of_ne_nil hem
        have h0 := hlfacts l0 (by rw [hcons]; exact List.mem_cons_self _ _)
        rw [hcons, joinSep_head? h0.1] at ha
        exact h0.2.1 a ha
      · intro a ha
        rcases List.eq_nil_or_concat (oracleLines store batch) with hn | ⟨ls'', lN, hdec⟩
        · exact absurd hn hem
        · have hN := hlfacts lN (by rw [hdec]; simp [List.concat_eq_append])
          rw [hdec, List.concat_eq_append, joinSep_getLast? hN.1] at ha
          exact hN.2.2.1 a ha
    rw [htrim]
    rw [splitOnChar_joinSep hem (fun l hl => (hlfacts l hl).2.2.2)]
    rw [List.filterMap_map]
    conv_lhs => rw [oracleLines]
    rw [List.filterMap_filterMap]
    apply List.filterMap_congr
    intro h hh
    obtain ⟨hne, hws⟩ := hgood h hh
    cases hsn : store h with
    | none => rfl
    | some n =>
      simp only [Option.map_some', Option.some_bind, Function.comp_apply]
      exact parseSizeLine_oracle hne hws

/-! ### Map lemmas -/

theorem mapSet_cons_eq {β : Type} {k' k : String} {v' v : β} {rest : List (String × β)}
    (h : k' = k) : mapSet ((k', v') :: rest) k v = (k, v) :: rest := by
  simp [mapSet, h]

theorem mapSet_cons_ne {β : Type} {k' k : String} {v' v : β} {rest : List (String × β)}
    (h : ¬ k' = k) : mapSet ((k', v') :: rest) k v = (k', v') :: mapSet rest k v := by
  simp [mapSet, h]

theorem mapGet_cons {β : Type} {k h : String} {v : β} {rest : List (String × β)} :
    mapGet ((k, v) :: rest) h = if k = h then some v else mapGet rest h := by
  by_cases hk : k = h
  · simp [mapGet, List.find?_cons, hk]
  · simp [mapGet, List.find?_cons, hk]

theorem mapGet_mapSet {β : Type} {m : List (String × β)} {k h : String} {v : β} :
    mapGet (mapSet m k v) h = if k = h then some v else mapGet m h := by
  induction m with
  | nil => exact mapGet_cons
  | cons p rest ih =>
    obtain ⟨k', v'⟩ := p
    by_cases hk : k' = k
    · rw [mapSet_cons_eq hk]
      subst hk
      rw [mapGet_cons, mapGet_cons]
      by_cases hkh : k' = h
      · simp [hkh]
      · simp [hkh]
    · rw [mapSet_cons_ne hk, mapGet_cons, mapGet_cons, ih]
      by_cases hk'h : k' = h
      · subst hk'h
        have hne : ¬ k = k' := fun he => hk he.symm
        simp [hne]
      · simp [hk'h]

theorem mem_mapKeys_mapSet {β : Type} {m : List (String × β)} {k h : String} {v : β} :
    h ∈ mapKeys (mapSet m k v) ↔ h ∈ mapKeys m ∨ h = k := by
  induction m with
  | nil => simp [mapSet, mapKeys, eq_comm]
  | cons p rest ih =>
    obtain ⟨k', v'⟩ := p
    by_cases hk : k' = k
    · rw [mapSet_cons_eq hk]
      subst hk
      simp only [mapKeys, List.map_cons, List.mem_cons]
      tauto
    · rw [mapSet_cons_ne hk]
      simp only [mapKeys, List.map_cons, List.mem_cons]
      simp only [mapKeys] at ih
      rw [ih]
      tauto

theorem nodup_mapKeys_mapSet {β : Type} {m : List (String × β)} {k : String} {v : β}
    (hnd : (mapKeys m).Nodup) : (mapKeys (mapSet m k v)).Nodup := by
  induction m with
  | nil => simp [mapSet, mapKeys]
  | cons p rest ih =>
    obtain ⟨k', v'⟩ := p
    simp only [mapKeys, List.map_cons, List.nodup_cons] at hnd
    by_cases hk : k' = k
    · rw [mapSet_cons_eq hk]
      subst hk
      simp only [mapKeys, List.map_cons, List.nodup_cons]
      exact hnd
    · rw [mapSet_cons_ne hk]
      simp only [mapKeys, List.map_cons, List.nodup_cons]
      refine ⟨?_, ih hnd.2⟩
      intro hm
      rcases (mem_mapKeys_mapSet).mp hm with h1 | h2
      · exact hnd.1 (by simpa [mapKeys] using h1)
      · exact hk h2

theorem hashKeys_nodup {lines : List String} : (hashKeys lines).Nodup := by
  have hgen : ∀ (obs : List (String × String)) (m : List (String × String)),
      (mapKeys m).Nodup →
      (mapKeys (obs.foldl (fun m p => mapSet m p.1 p.2) m)).Nodup := by
    intro obs
    induction obs with
    | nil => intro m hm; exact hm
    | cons p rest ih =>
      intro m hm
      exact ih _ (nodup_mapKeys_mapSet hm)
  exact hgen (observations lines) [] (by simp [mapKeys])

theorem mapGet_foldl_lastVal {obs : List (String × String)} :
    ∀ (m : List (String × String)) (h : String),
      mapGet (obs.foldl (fun m p => mapSet m p.1 p.2) m) h =
        match lastVal obs h with
        | some v => some v
        | none => mapGet m h := by
  induction obs with
  | nil => intro m h; rfl
  | cons p rest ih =>
    intro m h
    obtain ⟨k, v⟩ := p
    simp only [List.foldl_cons]
    rw [ih]
    simp only [lastVal]
    cases lastVal rest h with
    | some v' => rfl
    | none =>
      rw [mapGet_mapSet]
      by_cases hk : k = h
      · simp [hk]
      · simp [hk]

theorem lastVal_isSome_of_mem {β : Type} {obs : List (String × β)} {h : String} {p : β}
    (hm : (h, p) ∈ obs) : ∃ v, lastVal obs h = some v := by
  induction obs with
  | nil => simp at hm
  | cons q rest ih =>
    obtain ⟨k, v⟩ := q
    simp only [lastVal]
    cases hl : lastVal rest h with
    | some v' => exact ⟨v', rfl⟩
    | none =>
      rcases List.mem_cons.mp hm with h1 | h2
      · have hk : k = h := (congrArg Prod.fst h1).symm
        exact ⟨v, by rw [if_pos hk]⟩
      · obtain ⟨v', hv'⟩ := ih h2
        rw [hv'] at hl
        exact Option.noConfusion hl

theorem mem_mapKeys_of_mapGet {β : Type} {m : List (String × β)} {h : String} {v : β}
    (hg : mapGet m h = some v) : h ∈ mapKeys m := by
  induction m with
  | nil => simp [mapGet] at hg
  | cons p rest ih =>
    obtain ⟨k, v'⟩ := p
    rw [mapGet_cons] at hg
    by_cases hk : k = h
    · simp [mapKeys, hk]
    · rw [if_neg hk] at hg
      simp only [mapKeys, List.map_cons, List.mem_cons]
      exact Or.inr (by simpa [mapKeys] using ih hg)

/-! ### Chunking lemmas -/

theorem chunkListFuel_flatten {α : Type} {bs : Nat} (hbs : 1 ≤ bs) :
    ∀ (fuel : Nat) (xs : List α), xs.length ≤ fuel →
      (chunkListFuel fuel bs xs).flatten = xs := by
  intro fuel
  induction fuel with
  | zero =>
    intro xs hlen
    have : xs = [] := List.eq_nil_of_length_eq_zero (by omega)
    subst this
    rfl
  | succ fuel ih =>
    intro xs hlen
    cases xs with
    | nil => rfl
    | cons x xs' =>
      simp only [chunkListFuel, List.flatten_cons]
      rw [ih (List.drop bs (x :: xs')) (by
        rw [List.length_drop]
        simp only [List.length_cons] at hlen ⊢
        omega)]
      exact List.take_append_drop bs (x :: xs')

theorem chunkList_flatten {α : Type} {bs : Nat} (hbs : 1 ≤ bs) (xs : List α) :
    (chunkList bs xs).flatten = xs :=
  chunkListFuel_flatten hbs xs.length xs (le_refl _)

theorem chunkListFuel_mem_subset {α : Type} {bs : Nat} :
    ∀ (fuel : Nat) (xs : List α) (c : List α), c ∈ chunkListFuel fuel bs xs →
      ∀ a ∈ c, a ∈ xs := by
  intro fuel
  induction fuel with
  | zero => intro xs c hc; simp [chunkListFuel] at hc
  | succ fuel ih =>
    intro xs c hc a ha
    cases xs with
    | nil => simp [chunkListFuel] at hc
    | cons x xs' =>
      simp only [chunkListFuel, List.mem_cons] at hc
      rcases hc with rfl | hc
      · exact List.mem_of_mem_take ha
      · exact List.mem_of_mem_drop (ih _ c hc a ha)

theorem chunkList_mem_subset {α : Type} {bs : Nat} {xs c : List α}
    (hc : c ∈ chunkList bs xs) : ∀ a ∈ c, a ∈ xs :=
  chunkListFuel_mem_subset xs.length xs c hc

/-! ### Characterization of the pipeline under a store-backed collaborator -/

theorem goodHashes_spec {lines : List String} (hg : goodHashes lines = true) :
    ∀ h ∈ hashKeys lines, h ≠ "" ∧ noWsStr h = true := by
  intro h hh
  have := (List.all_eq_true.mp hg) h hh
  simp only [Bool.and_eq_true, bne_iff_ne, ne_eq] at this
  exact this

theorem rawObjects_storeOracle {lines : List String} {store : String → Option Nat}
    {failSet : List String → Bool} {bs : Nat}
    (hg : goodHashes lines = true) :
    rawObjects lines (storeOracle store failSet) bs =
      (chunkList bs (hashKeys lines)).flatMap (fun batch =>
        if failSet batch then [] else
          batch.filterMap (fun h => (store h).map
            (fun n : Nat => (⟨h, jsPathOr (mapGet (buildHashToPath lines) h),
              (n : Int)⟩ : SizedObject)))) := by
  unfold rawObjects
  apply List.flatMap_congr ?_
  intro batch hbatch
  have hgood : ∀ h ∈ batch, h ≠ "" ∧ noWsStr h = true := fun h hh =>
    goodHashes_spec hg h (chunkList_mem_subset hbatch h hh)
  unfold storeOracle
  by_cases hf : failSet batch = true
  · rw [if_pos hf, if_pos hf]
  · rw [if_neg hf, if_neg hf]
    exact processBatchOutput_oracle hgood

theorem filterMap_total_store {lines : List String} {store : String → Nat}
    (batch : List String) :
    batch.filterMap (fun h => (some (store h)).map
      (fun n : Nat => (⟨h, jsPathOr (mapGet (buildHashToPath lines) h),
        (n : Int)⟩ : SizedObject))) =
    batch.map (fun h =>
      (⟨h, jsPathOr (mapGet (buildHashToPath lines) h),
        (store h : Int)⟩ : SizedObject)) := by
  induction batch with
  | nil => rfl
  | cons b bs ih =>
    simp only [List.filterMap_cons, Option.map_some', List.map_cons]
    simp only [Option.map_some'] at ih
    rw [ih]

theorem rawObjects_total {lines : List String} {store : String → Nat} {bs : Nat}
    (hbs : 1 ≤ bs) (hg : goodHashes lines = true) :
    rawObjects lines (totalOracle store) bs =
      (hashKeys lines).map (fun h =>
        (⟨h, jsPathOr (mapGet (buildHashToPath lines) h),
          (store h : Int)⟩ : SizedObject)) := by
  unfold totalOracle
  rw [rawObjects_storeOracle hg]
  have hstep : ∀ batch : List String,
      (if (fun (_ : List String) => false) batch then ([] : List SizedObject) else
        batch.filterMap (fun h => (some (store h)).map
          (fun n : Nat => (⟨h, jsPathOr (mapGet (buildHashToPath lines) h),
            (n : Int)⟩ : SizedObject)))) =
      batch.map (fun h =>
        (⟨h, jsPathOr (mapGet (buildHashToPath lines) h),
          (store h : Int)⟩ : SizedObject)) := by
    intro batch
    rw [if_neg (by simp)]
    exact filterMap_total_store batch
  calc (chunkList bs (hashKeys lines)).flatMap (fun batch =>
        if (fun (_ : List String) => false) batch then [] else
          batch.filterMap (fun h => (some (store h)).map
            (fun n : Nat => (⟨h, jsPathOr (mapGet (buildHashToPath lines) h),
              (n : Int)⟩ : SizedObject))))
      = (chunkList bs (hashKeys lines)).flatMap (fun batch =>
          batch.map (fun h =>
            (⟨h, jsPathOr (mapGet (buildHashToPath lines) h),
              (store h : Int)⟩ : SizedObject))) := List.flatMap_congr (fun b _ => hstep b)
    _ = (hashKeys lines).map (fun h =>
          (⟨h, jsPathOr (mapGet (buildHashToPath lines) h),
            (store h : Int)⟩ : SizedObject)) := by
        rw [List.flatMap_def, ← List.map_flatten, chunkList_flatten hbs]

/-! ### Stable descending sort lemmas -/

theorem perm_insertDesc {x : SizedObject} {l : List SizedObject} :
    (insertDesc x l).Perm (x :: l) := by
  induction l with
  | nil => exact List.Perm.refl _
  | cons y ys ih =>
    by_cases hc : x.size < y.size
    · rw [insertDesc, if_pos hc]
      exact (ih.cons y).trans (List.Perm.swap x y ys)
    · rw [insertDesc, if_neg hc]

theorem perm_sortDescBySize {l : List SizedObject} : (sortDescBySize l).Perm l := by
  induction l with
  | nil => exact List.Perm.refl _
  | cons x xs ih =>
    show (insertDesc x (sortDescBySize xs)).Perm (x :: xs)
    exact perm_insertDesc.trans (ih.cons x)

theorem sorted_insertDesc {x : SizedObject} {l : List SizedObject}
    (hs : l.Pairwise (fun a b => b.size ≤ a.size)) :
    (insertDesc x l).Pairwise (fun a b => b.size ≤ a.size) := by
  induction l with
  | nil => simp [insertDesc]
  | cons y ys ih =>
    rcases List.pairwise_cons.mp hs with ⟨hy, hys⟩
    by_cases hc : x.size < y.size
    · rw [insertDesc, if_pos hc]
      refine List.pairwise_cons.mpr ⟨?_, ih hys⟩
      intro a ha
      rcases List.mem_cons.mp (perm_insertDesc.mem_iff.mp ha) with rfl | hm
      · omega
      · exact hy a hm
    · rw [insertDesc, if_neg hc]
      refine List.pairwise_cons.mpr ⟨?_, hs⟩
      intro a ha
      rcases List.mem_cons.mp ha with rfl | hm
      · omega
      · have := hy a hm
        omega

theorem sorted_sortDescBySize {l : List SizedObject} :
    (sortDescBySize l).Pairwise (fun a b => b.size ≤ a.size) := by
  induction l with
  | nil => simp [sortDescBySize]
  | cons x xs ih => exact sorted_insertDesc ih

theorem filter_insertDesc_pos {x : SizedObject} {l : List SizedObject} {s : Int}
    (hx : x.size = s) :
    (insertDesc x l).filter (fun o => o.size == s) =
      x :: l.filter (fun o => o.size == s) := by
  induction l with
  | nil => simp [insertDesc, List.filter_cons, hx]
  | cons y ys ih =>
    by_cases hc : x.size < y.size
    · rw [insertDesc, if_pos hc]
      have hy : (y.size == s) = false := by
        simp only [beq_eq_false_iff_ne, ne_eq]
        omega
      simp only [List.filter_cons, hy, Bool.false_eq_true, if_false, ih]
    · rw [insertDesc, if_neg hc]
      simp [List.filter_cons, hx]

theorem filter_insertDesc_neg {x : SizedObject} {l : List SizedObject} {s : Int}
    (hx : ¬ x.size = s) :
    (insertDesc x l).filter (fun o => o.size == s) =
      l.filter (fun o => o.size == s) := by
  induction l with
  | nil => simp [insertDesc, List.filter_cons, hx]
  | cons y ys ih =>
    by_cases hc : x.size < y.size
    · rw [insertDesc, if_pos hc]
      simp only [List.filter_cons, ih]
    · rw [insertDesc, if_neg hc]
      simp only [List.filter_cons, show (x.size == s) = false by simp [hx],
        Bool.false_eq_true, if_false]

theorem filter_sortDescBySize {l : List SizedObject} {s : Int} :
    (sortDescBySize l).filter (fun o => o.size == s) =
      l.filter (fun o => o.size == s) := by
  induction l with
  | nil => rfl
  | cons x xs ih =>
    show (insertDesc x (sortDescBySize xs)).filter _ = _
    by_cases hx : x.size = s
    · rw [filter_insertDesc_pos hx, ih]
      simp [List.filter_cons, hx]
    · rw [filter_insertDesc_neg hx, ih]
      simp [List.filter_cons, hx]

/-! ### Sum lemmas -/

theorem foldl_add_sizes {objects : List SizedObject} :
    ∀ a : Int, objects.foldl (fun sum o => sum + o.size) a = a + sumSizes objects := by
  induction objects with
  | nil => intro a; simp [sumSizes]
  | cons o os ih =>
    intro a
    simp only [List.foldl_cons, ih, sumSizes, List.map_cons, List.sum_cons]
    ring

theorem valsSum_mapSet_present {m : List (String × Int)} {k : String} {v w : Int}
    (hget : mapGet m k = some w) : valsSum (mapSet m k v) = valsSum m - w + v := by
  induction m with
  | nil => simp [mapGet] at hget
  | cons p rest ih =>
    obtain ⟨k', v'⟩ := p
    rw [mapGet_cons] at hget
    by_cases hk : k' = k
    · rw [mapSet_cons_eq hk]
      rw [if_pos hk] at hget
      obtain rfl : v' = w := by injection hget
      simp only [valsSum, List.map_cons, List.sum_cons]
      ring
    · rw [mapSet_cons_ne hk]
      rw [if_neg hk] at hget
      simp only [valsSum, List.map_cons, List.sum_cons]
      simp only [valsSum] at ih
      rw [ih hget]
      ring

theorem valsSum_mapSet_absent {m : List (String × Int)} {k : String} {v : Int}
    (hget : mapGet m k = none) : valsSum (mapSet m k v) = valsSum m + v := by
  induction m with
  | nil => simp [mapSet, valsSum]
  | cons p rest ih =>
    obtain ⟨k', v'⟩ := p
    rw [mapGet_cons] at hget
    by_cases hk : k' = k
    · rw [if_pos hk] at hget
      exact Option.noConfusion hget
    · rw [mapSet_cons_ne hk]
      rw [if_neg hk] at hget
      simp only [valsSum, List.map_cons, List.sum_cons]
      simp only [valsSum] at ih
      rw [ih hget]
      ring

theorem valsSum_mapIncr {m : List (String × Int)} {k : String} {v : Int} :
    valsSum (mapIncr m k v) = valsSum m + v := by
  unfold mapIncr
  cases hget : mapGet m k with
  | none =>
    rw [valsSum_mapSet_absent hget]
    simp
  | some w =>
    rw [valsSum_mapSet_present hget]
    simp only [Option.getD_some]
    ring

theorem valsSum_categoryTotals {objects : List SizedObject} :
    valsSum (categoryTotals objects) = sumSizes objects := by
  have hgen : ∀ (os : List SizedObject) (m : List (String × Int)),
      valsSum (os.foldl (fun m o => mapIncr m (categorizeFile o.path) o.size) m) =
        valsSum m + sumSizes os := by
    intro os
    induction os with
    | nil => intro m; simp [sumSizes]
    | cons o os ih =>
      intro m
      simp only [List.foldl_cons, ih, valsSum_mapIncr, sumSizes, List.map_cons,
        List.sum_cons]
      ring
  have := hgen objects []
  simpa [categoryTotals, valsSum] using this

/-! ### `find?` over a prefix that never matches -/

theorem find?_append_none {α : Type} {p : α → Bool} {l₁ l₂ : List α}
    (h : ∀ e ∈ l₁, p e = false) :
    List.find? p (l₁ ++ l₂) = List.find? p l₂ := by
  induction l₁ with
  | nil => rfl
  | cons a l ih =>
    rw [List.cons_append, List.find?_cons]
    rw [h a (List.mem_cons_self _ _)]
    exact ih (fun e he => h e (List.mem_cons_of_mem _ he))

/-! ### Recommendation membership -/

theorem mem_ite_nil {α : Type} {c : Prop} [Decidable c] {x : α} {l : List α} :
    x ∈ (if c then l else []) ↔ c ∧ x ∈ l := by
  by_cases hc : c
  · simp [hc]
  · simp [hc]

theorem mem_healthy_wrap {x : String} {l : List String} (hx : x ≠ recHealthy) :
    x ∈ (if l.isEmpty then [recHealthy] else l) ↔ x ∈ l := by
  cases l with
  | nil => simp [hx]
  | cons a l => simp

theorem recLargeCount_head {n : Nat} : (recLargeCount n).data.head? = some '💡' := rfl

theorem recStoreBloat_ne_recLargeCount {n : Nat} : recStoreBloat ≠ recLargeCount n := by
  intro h
  have h1 : recStoreBloat.data.head? = some '💡' := by rw [h]; exact recLargeCount_head
  have h2 : recStoreBloat.data.head? = some '⚠' := rfl
  rw [h2] at h1
  exact absurd (by injection h1) (by decide : ¬ ('⚠' : Char) = '💡')

/-! ### Inventory entry inversion -/

theorem parseSizeLine_path {hp : List (String × String)} {line : String}
    {o : SizedObject} (h : parseSizeLine hp line = some o) :
    o.path = jsPathOr (mapGet hp o.hash) := by
  simp only [parseSizeLine] at h
  split at h
  · exact Option.noConfusion h
  · split at h
    · exact Option.noConfusion h
    · obtain rfl := (Option.some.injEq _ _).mp h
      rfl

theorem jsPathOr_ne_empty {x : Option String} : jsPathOr x ≠ "" := by
  cases x with
  | none => simp [jsPathOr]
  | some p =>
    by_cases hp : p = ""
    · simp [jsPathOr, hp]
    · simp [jsPathOr, hp]

theorem mem_rawObjects_path {lines : List String}
    {catFile : List String → Option String} {bs : Nat} {o : SizedObject}
    (h : o ∈ rawObjects lines catFile bs) :
    o.path = jsPathOr (mapGet (buildHashToPath lines) o.hash) := by
  unfold rawObjects at h
  rcases List.mem_flatMap.mp h with ⟨batch, _, hmem⟩
  cases hcf : catFile batch with
  | none => rw [hcf] at hmem; simp at hmem
  | some out =>
    rw [hcf] at hmem
    unfold processBatchOutput at hmem
    rcases List.mem_filterMap.mp hmem with ⟨line, _, hparse⟩
    exact parseSizeLine_path hparse

/-! ## Claim theorems -/

/-- C1 counterexample: the path `mybinary.zip` has extension `zip`, which the
fixed table lists under `archive`, yet the classifier returns `binary`: the
substring check of each category name runs interleaved with the extension
checks, not only after every extension fails. -/
theorem c1_extension_priority_cex :
    ("archive", ["zip", "tar", "gz", "bz2", "xz", "7z", "rar", "tgz"]) ∈ categoryTable ∧
    fileExt "mybinary.zip" = "zip" ∧
    categorizeFile "mybinary.zip" = "binary" ∧
    ("binary" : String) ≠ "archive" :=
  ⟨by decide, by decide, by decide, by decide⟩

/-- C1 (amended): the classifier scans the fixed table in order and returns
the first category whose extension list contains the path's lowercased
extension or whose name occurs as a substring of the path; a table extension
wins only when no earlier category matches by extension or substring, and
when no entry matches at all the result is `other`. -/
theorem c1_first_match_amended :
    (∀ (path : String) (pre post : List (String × List String)) (c : String)
        (exts : List String),
      categoryTable = pre ++ (c, exts) :: post →
      (∀ e ∈ pre, matchesCat path e = false) →
      matchesCat path (c, exts) = true →
      categorizeFile path = c) ∧
    (∀ path : String, (∀ e ∈ categoryTable, matchesCat path e = false) →
      categorizeFile path = "other") := by
  constructor
  · intro path pre post c exts htab hpre hmatch
    unfold categorizeFile
    rw [htab, find?_append_none hpre, List.find?_cons_of_pos _ hmatch]
  · intro path hall
    unfold categorizeFile
    rw [List.find?_eq_none.mpr (fun e he => by simp [hall e he])]

/-- C1 witness: `x.zip` does not match the earlier `binary` entry and its
extension is listed under `archive`, so it classifies as `archive`; `qqq`
matches nothing and classifies as `other`. -/
theorem c1_first_match_witness :
    categorizeFile "x.zip" = "archive" ∧ categorizeFile "qqq" = "other" :=
  ⟨c1_first_match_amended.1 "x.zip"
      [("binary", ["exe", "dll", "so", "dylib", "bin", "obj", "o", "a"])]
      [("image", ["jpg", "jpeg", "png", "gif", "bmp", "tiff", "psd", "svg", "webp", "ico"]),
       ("video", ["mp4", "avi", "mov", "wmv", "flv", "webm", "mkv"]),
       ("audio", ["mp3", "wav", "ogg", "flac", "aac", "m4a"]),
       ("data", ["db", "sqlite", "sql", "csv", "json", "xml", "parquet"]),
       ("document", ["pdf", "doc", "docx", "xls", "xlsx", "ppt", "pptx"]),
       ("package", ["jar", "war", "ear", "whl", "gem", "nupkg"]),
       ("nodemodules", ["node_modules"]),
       ("log", ["log"])]
      "archive" ["zip", "tar", "gz", "bz2", "xz", "7z", "rar", "tgz"]
      rfl (by decide) (by decide),
   c1_first_match_amended.2 "qqq" (by decide)⟩

/-- C4: every inventory the pipeline produces is non-increasing by size, and
the descending sort is stable: the entries of any fixed size appear in the
inventory in exactly their pre-sort (first-pushed) relative order. -/
theorem c4_sorted_stable (lines : List String)
    (catFile : List String → Option String) (bs : Nat) :
    List.Chain' (fun a b => b.size ≤ a.size) (getAllObjectsChunked lines catFile bs) ∧
    ∀ s : Int, (getAllObjectsChunked lines catFile bs).filter (fun o => o.size == s) =
      (rawObjects lines catFile bs).filter (fun o => o.size == s) := by
  constructor
  · exact List.Pairwise.chain' sorted_sortDescBySize
  · intro s
    exact filter_sortDescBySize

/-- C5 counterexample: the dotless path `changelog` has no file extension,
yet it classifies as `log` (the whole path serves as the extension and the
category-name substring check fires), not `other` as the claim requires. -/
theorem c5_totality_cex :
    ('.' ∉ ("changelog" : String).data) ∧
    categorizeFile "changelog" = "log" ∧ ("log" : String) ≠ "other" :=
  ⟨by decide, by decide, by decide⟩

/-- C5 (amended): classification is total with values in the fixed category
set and never fails; the empty string classifies as `other`; a path with no
dot uses the entire lowercased path as its extension, so it classifies as
`other` only when that string and the substring checks match no category. -/
theorem c5_totality_amended :
    (∀ path : String, categorizeFile path ∈ fixedCategories) ∧
    categorizeFile "" = "other" ∧
    (∀ path : String, '.' ∉ path.data →
      fileExt path = String.mk (path.data.map Char.toLower)) := by
  refine ⟨?_, by decide, ?_⟩
  · intro path
    unfold categorizeFile
    cases hf : categoryTable.find? (matchesCat path) with
    | none => simp [fixedCategories]
    | some e =>
      have hmem := List.mem_of_find?_eq_some hf
      simp only [fixedCategories, List.mem_append]
      exact Or.inl (List.mem_map.mpr ⟨e, hmem, rfl⟩)
  · intro path hdot
    unfold fileExt
    rw [splitOnChar_of_not_mem hdot]
    rfl

/-- C5 witness: the dotless path `README` uses the whole lowercased path as
its extension. -/
theorem c5_totality_witness :
    ('.' ∉ ("README" : String).data) ∧ fileExt "README" = "readme" := by
  refine ⟨by decide, ?_⟩
  rw [c5_totality_amended.2.2 "README" (by decide)]
  decide

/-- C9: over the unfiltered inventory, the per-category byte totals sum to
exactly the reported `totalObjectSize` — every entry lands in exactly one
category. -/
theorem c9_conservation (lines : List String)
    (catFile : List String → Option String) (g w limit : Nat) (minSize : Int) :
    valsSum (categoryTotals (getAllObjects lines catFile)) =
      (analyzeBloat lines catFile g w limit minSize).stats.totalObjectSize := by
  show valsSum _ = (getAllObjects lines catFile).foldl (fun sum o => sum + o.size) 0
  rw [valsSum_categoryTotals, foldl_add_sizes]
  simp

/-- C10: every inventory entry has a non-empty logical path; an entry whose
identifier was enumerated with no path (commits, trees) or never recorded a
path carries the literal `(unknown)`, and `(unknown)` classifies as
`other`. -/
theorem c10_unknown_path (lines : List String)
    (catFile : List String → Option String) (bs : Nat) (o : SizedObject)
    (hmem : o ∈ getAllObjectsChunked lines catFile bs) :
    o.path ≠ "" ∧
    o.path = jsPathOr (mapGet (buildHashToPath lines) o.hash) ∧
    ((mapGet (buildHashToPath lines) o.hash = none ∨
      mapGet (buildHashToPath lines) o.hash = some "") → o.path = "(unknown)") ∧
    categorizeFile "(unknown)" = "other" := by
  have hraw : o ∈ rawObjects lines catFile bs :=
    (perm_sortDescBySize.mem_iff).mp hmem
  have hpath := mem_rawObjects_path hraw
  refine ⟨?_, hpath, ?_, by decide⟩
  · rw [hpath]; exact jsPathOr_ne_empty
  · intro hcase
    rw [hpath]
    rcases hcase with hc | hc
    · rw [hc]; rfl
    · rw [hc]; simp [jsPathOr]

/-- C10 witness: a lone identifier enumerated with no path yields the entry
path `(unknown)`. -/
theorem c10_unknown_path_witness :
    (⟨"h1", "(unknown)", 7⟩ : SizedObject) ∈
      getAllObjectsChunked ["h1"] (totalOracle (fun _ => 7)) 500 ∧
    ("(unknown)" : String) ≠ "" ∧ categorizeFile "(unknown)" = "other" := by
  have hm : (⟨"h1", "(unknown)", 7⟩ : SizedObject) ∈
      getAllObjectsChunked ["h1"] (totalOracle (fun _ => 7)) 500 := by decide
  have h := c10_unknown_path ["h1"] (totalOracle (fun _ => 7)) 500 _ hm
  exact ⟨hm, h.1, h.2.2.2⟩

/-- The store-bloat advisory is emitted exactly when
`gitDirSize > workingDirSize * 3`; no other rule produces this string. -/
theorem mem_recs_storeBloat (objects : List SizedObject) (g w : Nat) :
    recStoreBloat ∈ generateRecommendations objects g w ↔ w * 3 < g := by
  have h1 : recStoreBloat ≠ recNodeModules := by decide
  have h2 : recStoreBloat ≠ recVendor := by decide
  have h3 : recStoreBloat ≠ recLargeMedia := by decide
  have h4 : recStoreBloat ≠ recPackages := by decide
  have h5 : ∀ n : Nat, recStoreBloat ≠ recLargeCount n :=
    fun n => recStoreBloat_ne_recLargeCount
  simp only [generateRecommendations]
  rw [mem_healthy_wrap (by decide)]
  simp [mem_ite_nil, h1, h2, h3, h4, h5]

/-- C2 counterexample: with `workingDirSize = 0` (the source reports a failed
working-tree measurement as 0) and `gitDirSize = 1`, the store-bloat rule
fires, and the reported ratio is the division `1 / 0`, JavaScript
`Infinity` — both halves of the claim fail on the code. -/
theorem c2_store_bloat_cex :
    recStoreBloat ∈ generateRecommendations [] 1 0 ∧
    (analyzeBloat [] (totalOracle (fun _ => 0)) 1 0 20 1048576).stats.ratioStat
      = JsNum.inf :=
  ⟨by decide, by decide⟩

/-- C2 (amended): the store-bloat advisory fires exactly when
`historyStoreBytes > 3 × workingTreeBytes`; because an unavailable
working-tree measurement is reported as 0, the rule then fires for every
positive store size.  The reported ratio is the unconditional JavaScript
division `historyStoreBytes / workingTreeBytes`, which never throws but is
the non-finite `Infinity` (or `NaN` for `0 / 0`) when the denominator is
0. -/
theorem c2_store_bloat_amended :
    (∀ (objects : List SizedObject) (g w : Nat),
      recStoreBloat ∈ generateRecommendations objects g w ↔ w * 3 < g) ∧
    (∀ (lines : List String) (catFile : List String → Option String)
        (g w limit : Nat) (minSize : Int),
      (analyzeBloat lines catFile g w limit minSize).stats.ratioStat = jsDivNat g w) ∧
    (∀ g : Nat, jsDivNat g 0 = if g = 0 then JsNum.nan else JsNum.inf) := by
  refine ⟨mem_recs_storeBloat, ?_, ?_⟩
  · intro lines catFile g w limit minSize
    rfl
  · intro g
    simp [jsDivNat]

/-- C3 counterexample: the identifier `h` is enumerated under `p1` first and
`p2` second; the inventory keeps exactly one entry for `h`, but its logical
path is `p2` — the last observed path, not the first-seen `p1` the claim
requires (`Map.set` overwrites). -/
theorem c3_dedup_cex :
    firstVal (observations ["h p1", "h p2"]) "h" = some "p1" ∧
    getAllObjects ["h p1", "h p2"] (totalOracle (fun _ => 5)) =
      [⟨"h", "p2", 5⟩] ∧
    ("p2" : String) ≠ "p1" :=
  ⟨by decide, by decide, by decide⟩

/-- Filtering a mapped key list by one key picks exactly that key's image
when the keys are distinct. -/
theorem filter_hash_map {ks : List String} {ent : String → SizedObject}
    (hent : ∀ x, (ent x).hash = x) (hnd : ks.Nodup) {h : String} (hmem : h ∈ ks) :
    (ks.map ent).filter (fun o => o.hash == h) = [ent h] := by
  induction ks with
  | nil => simp at hmem
  | cons k ks ih =>
    rcases List.nodup_cons.mp hnd with ⟨hk, hnd'⟩
    rw [List.map_cons, List.filter_cons]
    by_cases hkh : k = h
    · subst hkh
      rw [show ((ent k).hash == k) = true by simp [hent]]
      have hrest : (ks.map ent).filter (fun o => o.hash == k) = [] := by
        refine List.filter_eq_nil_iff.mpr ?_
        intro a ha
        rcases List.mem_map.mp ha with ⟨x, hx, rfl⟩
        simp only [hent, beq_iff_eq, ne_eq]
        exact fun he => hk (he ▸ hx)
      simp [hrest]
    · rw [show ((ent k).hash == h) = false by simp [hent, hkh]]
      have hmem' : h ∈ ks := by
        rcases List.mem_cons.mp hmem with rfl | hm
        · exact absurd rfl hkh
        · exact hm
      simpa using ih hnd' hmem'

/-- C3 (amended): in include-deleted mode, an identifier enumerated under
several logical paths contributes exactly one inventory entry, but its
logical path is the LAST path observed for it in enumeration order (each
repeated `Map.set` overwrites the recorded path), with the empty-path
fallback `(unknown)`. -/
theorem c3_dedup_amended (lines : List String) (store : String → Nat)
    (h p : String) (hg : goodHashes lines = true)
    (hobs : (h, p) ∈ observations lines) :
    (getAllObjects lines (totalOracle store)).filter (fun o => o.hash == h) =
      [⟨h, jsPathOr (lastVal (observations lines) h), (store h : Int)⟩] := by
  obtain ⟨v, hv⟩ := lastVal_isSome_of_mem hobs
  have hget : mapGet (buildHashToPath lines) h = lastVal (observations lines) h := by
    have hm := @mapGet_foldl_lastVal (observations lines)
      ([] : List (String × String)) h
    rw [hv] at hm ⊢
    exact hm
  have hkeys : h ∈ hashKeys lines :=
    @mem_mapKeys_of_mapGet String (buildHashToPath lines) h v (by rw [hget, hv])
  have hraw := @rawObjects_total lines store batchSize
    (show 1 ≤ batchSize by decide) hg
  have hperm : ((getAllObjects lines (totalOracle store)).filter
      (fun o => o.hash == h)).Perm
      ((rawObjects lines (totalOracle store) batchSize).filter
        (fun o => o.hash == h)) :=
    List.Perm.filter _ perm_sortDescBySize
  rw [hraw] at hperm
  rw [filter_hash_map (fun _ => rfl) hashKeys_nodup hkeys] at hperm
  rw [List.perm_singleton.mp hperm, hget]

/-- C3 witness: with `h` listed under `p1` then `p2`, the inventory's sole
entry for `h` carries the last-seen path `p2`. -/
theorem c3_dedup_witness :
    (getAllObjects ["h p1", "h p2"] (totalOracle (fun _ => 5))).filter
        (fun o => o.hash == "h") =
      [⟨"h", jsPathOr (lastVal (observations ["h p1", "h p2"]) "h"), 5⟩] :=
  c3_dedup_amended ["h p1", "h p2"] (fun _ => 5) "h" "p1" (by decide) (by decide)

/-- C6: when a batch of the size-resolution step fails, every identifier of
that batch is absent from the inventory (nothing is zero-filled), every
other batch still contributes its entries, and the inventory length counts
exactly the identifiers of the non-failing batches. -/
theorem c6_batch_failure (lines : List String) (store : String → Nat)
    (failSet : List String → Bool) (bs : Nat) (hbs : 1 ≤ bs)
    (hg : goodHashes lines = true) :
    (∀ h : String,
      h ∈ (getAllObjectsChunked lines
          (storeOracle (fun x => some (store x)) failSet) bs).map
          (fun o => o.hash) ↔
        ∃ c ∈ chunkList bs (hashKeys lines), failSet c = false ∧ h ∈ c) ∧
    (∀ c ∈ chunkList bs (hashKeys lines), failSet c = true →
      ∀ h ∈ c, h ∉ (getAllObjectsChunked lines
        (storeOracle (fun x => some (store x)) failSet) bs).map
        (fun o => o.hash)) ∧
    (getAllObjectsChunked lines
        (storeOracle (fun x => some (store x)) failSet) bs).length =
      (((chunkList bs (hashKeys lines)).filter (fun c => !failSet c)).map
        (fun c => c.length)).sum := by
  have hraw : rawObjects lines (storeOracle (fun x => some (store x)) failSet) bs =
      (chunkList bs (hashKeys lines)).flatMap (fun c =>
        if failSet c then [] else c.map (fun h =>
          (⟨h, jsPathOr (mapGet (buildHashToPath lines) h),
            (store h : Int)⟩ : SizedObject))) := by
    rw [rawObjects_storeOracle hg]
    refine List.flatMap_congr ?_
    intro c _
    by_cases hf : failSet c = true
    · rw [if_pos hf, if_pos hf]
    · rw [if_neg hf, if_neg hf]
      exact filterMap_total_store c
  have hmem_iff : ∀ h : String,
      h ∈ (getAllObjectsChunked lines
          (storeOracle (fun x => some (store x)) failSet) bs).map
          (fun o => o.hash) ↔
        ∃ c ∈ chunkList bs (hashKeys lines), failSet c = false ∧ h ∈ c := by
    intro h
    show h ∈ (sortDescBySize (rawObjects lines
      (storeOracle (fun x => some (store x)) failSet) bs)).map (fun o => o.hash) ↔ _
    rw [(perm_sortDescBySize.map (fun o => o.hash)).mem_iff]
    rw [hraw]
    constructor
    · intro hmem
      rcases List.mem_map.mp hmem with ⟨o, ho, rfl⟩
      rcases List.mem_flatMap.mp ho with ⟨c, hc, hin⟩
      by_cases hf : failSet c = true
      · rw [if_pos hf] at hin
        simp at hin
      · rw [if_neg hf] at hin
        rcases List.mem_map.mp hin with ⟨x, hx, rfl⟩
        exact ⟨c, hc, by simpa using hf, hx⟩
    · rintro ⟨c, hc, hf, hin⟩
      refine List.mem_map.mpr ⟨⟨h, jsPathOr (mapGet (buildHashToPath lines) h),
        (store h : Int)⟩, ?_, rfl⟩
      refine List.mem_flatMap.mpr ⟨c, hc, ?_⟩
      rw [if_neg (by simp [hf])]
      exact List.mem_map.mpr ⟨h, hin, rfl⟩
  refine ⟨hmem_iff, ?_, ?_⟩
  · intro c hc hfail h hin hmem
    rcases (hmem_iff h).mp hmem with ⟨c', hc', hfail', hin'⟩
    have hcne : c ≠ c' := by
      intro he
      rw [← he, hfail] at hfail'
      exact Bool.noConfusion hfail'
    have hflat : (chunkList bs (hashKeys lines)).flatten.Nodup := by
      rw [chunkList_flatten hbs]
      exact hashKeys_nodup
    have hpair := (List.nodup_flatten.mp hflat).2
    have hsymm : Symmetric (@List.Disjoint String) :=
      fun a b hab => List.disjoint_comm.mp hab
    exact hpair.forall hsymm hc hc' hcne hin hin'
  · show (sortDescBySize (rawObjects lines
      (storeOracle (fun x => some (store x)) failSet) bs)).length = _
    rw [perm_sortDescBySize.length_eq, hraw, List.length_flatMap]
    induction chunkList bs (hashKeys lines) with
    | nil => rfl
    | cons c cs ih =>
      rw [List.map_cons, List.sum_cons, List.filter_cons, ih]
      by_cases hf : failSet c = true
      · simp [hf]
      · simp [hf]

/-- C6 witness: with batch size 1 and the batch `["h1"]` failing, `h1` is
absent, `h2` survives, and the inventory length is 1. -/
theorem c6_batch_failure_witness :
    (1 ≤ 1 ∧ goodHashes ["h1 p1", "h2 p2"] = true) ∧
    (getAllObjectsChunked ["h1 p1", "h2 p2"]
        (storeOracle (fun _ => some 5) (fun c => c == ["h1"])) 1).length =
      (((chunkList 1 (hashKeys ["h1 p1", "h2 p2"])).filter
        (fun c => !(c == ["h1"]))).map (fun c => c.length)).sum :=
  ⟨⟨by decide, by decide⟩,
   (c6_batch_failure ["h1 p1", "h2 p2"] (fun _ => 5) (fun c => c == ["h1"]) 1
     (by decide) (by decide)).2.2⟩

/-- C7: with every size lookup succeeding, the inventory is identical for
every batch size of at least 1 — in particular equal to the source's
batch-size-500 result; the chunking constant affects no output. -/
theorem c7_chunk_invariance (lines : List String) (store : String → Nat) (bs : Nat)
    (hbs : 1 ≤ bs) (hg : goodHashes lines = true) :
    getAllObjectsChunked lines (totalOracle store) bs =
      getAllObjects lines (totalOracle store) := by
  unfold getAllObjects getAllObjectsChunked
  rw [rawObjects_total hbs hg, rawObjects_total (show 1 ≤ batchSize by decide) hg]

/-- C7 witness: batch size 2 gives the same inventory as the source's 500 on
a three-identifier enumeration. -/
theorem c7_chunk_invariance_witness :
    (1 ≤ 2 ∧ goodHashes ["a x", "b y", "c z"] = true) ∧
    getAllObjectsChunked ["a x", "b y", "c z"] (totalOracle (fun _ => 4)) 2 =
      getAllObjects ["a x", "b y", "c z"] (totalOracle (fun _ => 4)) :=
  ⟨⟨by decide, by decide⟩,
   c7_chunk_invariance ["a x", "b y", "c z"] (fun _ => 4) 2 (by decide) (by decide)⟩

/-- C8: every entry of the returned subset meets the minimum-size threshold
and the subset holds at most `limit` entries; when every object is below the
threshold the subset is empty and `largeObjectCount` is 0, while
`totalObjectSize` still sums the full unfiltered inventory. -/
theorem c8_threshold_filter (lines : List String)
    (catFile : List String → Option String) (g w limit : Nat) (minSize : Int) :
    (∀ e ∈ (analyzeBloat lines catFile g w limit minSize).largestFiles,
      minSize ≤ e.1.size) ∧
    (analyzeBloat lines catFile g w limit minSize).largestFiles.length ≤ limit ∧
    ((∀ o ∈ getAllObjects lines catFile, o.size < minSize) →
      (analyzeBloat lines catFile g w limit minSize).largestFiles = [] ∧
      (analyzeBloat lines catFile g w limit minSize).stats.largeObjectCount = 0) ∧
    (analyzeBloat lines catFile g w limit minSize).stats.totalObjectSize =
      sumSizes (getAllObjects lines catFile) := by
  have hlf : (analyzeBloat lines catFile g w limit minSize).largestFiles =
      (((getAllObjects lines catFile).filter
        (fun o => minSize ≤ o.size)).take limit).map
        (fun o => (o, categorizeFile o.path)) := rfl
  have hcount : (analyzeBloat lines catFile g w limit minSize).stats.largeObjectCount =
      ((getAllObjects lines catFile).filter (fun o => minSize ≤ o.size)).length := rfl
  refine ⟨?_, ?_, ?_, ?_⟩
  · intro e he
    rw [hlf] at he
    rcases List.mem_map.mp he with ⟨o, ho, rfl⟩
    have hof : o ∈ (getAllObjects lines catFile).filter (fun o => minSize ≤ o.size) :=
      List.mem_of_mem_take ho
    have := (List.mem_filter.mp hof).2
    simpa using this
  · rw [hlf, List.length_map, List.length_take]
    exact min_le_left _ _
  · intro hall
    have hfil : (getAllObjects lines catFile).filter (fun o => minSize ≤ o.size) = [] := by
      refine List.filter_eq_nil_iff.mpr ?_
      intro o ho
      have := hall o ho
      simp only [decide_eq_true_eq]
      omega
    constructor
    · rw [hlf, hfil]
      simp
    · rw [hcount, hfil]
      rfl
  · show (getAllObjects lines catFile).foldl (fun sum o => sum + o.size) 0 = _
    rw [foldl_add_sizes]
    simp

/-- C8 witness: with threshold 3 the lone size-5 entry is in the subset and
meets the bound; with threshold 10 the subset is empty and the filtered
count is 0. -/
theorem c8_threshold_filter_witness :
    ((3 : Int) ≤ 5) ∧
    ((analyzeBloat ["aaa f.txt"] (totalOracle (fun _ => 5)) 0 0 2 10).largestFiles = [] ∧
     (analyzeBloat ["aaa f.txt"] (totalOracle (fun _ => 5)) 0 0 2 10).stats.largeObjectCount
       = 0) := by
  constructor
  · exact (c8_threshold_filter ["aaa f.txt"] (totalOracle (fun _ => 5)) 0 0 2 3).1
      (⟨"aaa", "f.txt", 5⟩, "other") (by decide)
  · exact (c8_threshold_filter ["aaa f.txt"] (totalOracle (fun _ => 5)) 0 0 2 10).2.2.1
      (by decide)

end GitBloat
